import Mathlib

/-!
Verification development for the sympy excerpt vendored in this repository:
`sympy/physics/quantum/qapply.py` (operator application) and
`sympy/integrals/trigonometry.py` (trigonometric power-reduction integration).

The expression tree itself is owned by the external computer-algebra library;
this file embeds the sublanguage of that tree which the two modules inspect
(symbols, integers, operators, kets, bras, sums, products, powers, tensor
products, inner and outer products on the quantum side; symbols, numbers,
sums, products, powers and the six trigonometric functions on the
integration side).  External library callbacks that the code under `src/`
invokes (`_apply_operator`, `InnerProduct.doit`, `expand`, `Dagger`,
`integrate`) are oracle parameters of the embedding.
-/

namespace QapplyModel

/-- Shallow embedding of the sympy expression sublanguage that
`qapply.py` walks.  `sym` is a commutative `Symbol`, `intE` an `Integer`,
`op` an `Operator`, `ket` a `KetBase`, `bra` a `BraBase`; `add`, `mul`,
`tensor` keep sympy's n-ary argument lists; `outer k b` is
`OuterProduct(k, b)` (with `.ket = k`, `.bra = b`) and `inner b k` is
`InnerProduct(b, k)`.  The `Commutator`, `Density` and `Wavefunction`
branches of `qapply.py` concern classes outside this sublanguage and are
not represented. -/
inductive Expr where
  | sym (s : String)
  | intE (n : Int)
  | op (s : String)
  | ket (s : String)
  | bra (s : String)
  | add (args : List Expr)
  | mul (args : List Expr)
  | pow (b e : Expr)
  | tensor (args : List Expr)
  | outer (k b : Expr)
  | inner (b k : Expr)
deriving Repr

mutual

/-- Structural boolean equality on `Expr` (sympy `==` on expression trees). -/
def beqE : Expr → Expr → Bool
  | .sym a, .sym b => a == b
  | .intE a, .intE b => a == b
  | .op a, .op b => a == b
  | .ket a, .ket b => a == b
  | .bra a, .bra b => a == b
  | .add a, .add b => beqL a b
  | .mul a, .mul b => beqL a b
  | .pow a b, .pow c d => beqE a c && beqE b d
  | .tensor a, .tensor b => beqL a b
  | .outer a b, .outer c d => beqE a c && beqE b d
  | .inner a b, .inner c d => beqE a c && beqE b d
  | _, _ => false

/-- Pointwise `beqE` on argument lists. -/
def beqL : List Expr → List Expr → Bool
  | [], [] => true
  | a :: as, b :: bs => beqE a b && beqL as bs
  | _, _ => false

end

mutual

theorem beqE_iff : ∀ a b : Expr, beqE a b = true ↔ a = b
  | a, b => by
    cases a <;> cases b <;> simp [beqE]
    case add.add x y => exact beqL_iff x y
    case mul.mul x y => exact beqL_iff x y
    case tensor.tensor x y => exact beqL_iff x y
    case pow.pow x y z w => rw [beqE_iff x z, beqE_iff y w]
    case outer.outer x y z w => rw [beqE_iff x z, beqE_iff y w]
    case inner.inner x y z w => rw [beqE_iff x z, beqE_iff y w]

theorem beqL_iff : ∀ a b : List Expr, beqL a b = true ↔ a = b
  | [], [] => by simp [beqL]
  | [], _ :: _ => by simp [beqL]
  | _ :: _, [] => by simp [beqL]
  | a :: as, b :: bs => by
    simp only [beqL, Bool.and_eq_true, List.cons.injEq]
    rw [beqE_iff a b, beqL_iff as bs]

end

instance : DecidableEq Expr := fun a b =>
  decidable_of_iff (beqE a b = true) (beqE_iff a b)

mutual

/-- sympy's `is_commutative` assumption on the embedded sublanguage:
symbols and integers are commutative scalars, `InnerProduct` is a scalar,
operators, states, outer products and tensor products are non-commutative,
and `Add`/`Mul`/`Pow` are commutative exactly when their arguments are. -/
def isCommutative : Expr → Bool
  | .sym _ => true
  | .intE _ => true
  | .op _ => false
  | .ket _ => false
  | .bra _ => false
  | .add l => listComm l
  | .mul l => listComm l
  | .pow b e => isCommutative b && isCommutative e
  | .tensor _ => false
  | .outer _ _ => false
  | .inner _ _ => true

/-- All members of a list are commutative. -/
def listComm : List Expr → Bool
  | [] => true
  | x :: xs => isCommutative x && listComm xs

end

/-- sympy `.args` of an expression node (atoms have no args). -/
def argsOf : Expr → List Expr
  | .add l => l
  | .mul l => l
  | .tensor l => l
  | .pow b e => [b, e]
  | .outer k b => [k, b]
  | .inner b k => [b, k]
  | _ => []

/-- `isinstance(e, Mul)`. -/
def Expr.isMul : Expr → Bool
  | .mul _ => true
  | _ => false

/-- `isinstance(e, KetBase)`. -/
def Expr.isKet : Expr → Bool
  | .ket _ => true
  | _ => false

/-- `isinstance(e, BraBase)`. -/
def Expr.isBra : Expr → Bool
  | .bra _ => true
  | _ => false

/-- `isinstance(e, InnerProduct)`. -/
def Expr.isInner : Expr → Bool
  | .inner _ _ => true
  | _ => false

/-- `isinstance(e, Operator)`. -/
def Expr.isOp : Expr → Bool
  | .op _ => true
  | _ => false

/-- `isinstance(e, State)`: kets and bras of the sublanguage. -/
def Expr.isState : Expr → Bool
  | .ket _ => true
  | .bra _ => true
  | _ => false

/-- Modelled from the spec: the external CAS owns expression construction
("an external collaborator providing expression nodes"); its `Pow`
constructor evaluates the trivial exponents, `b**0 = 1`, `b**1 = b`,
`1**e = 1`. -/
def mkPow : Expr → Expr → Expr
  | _, .intE 0 => .intE 1
  | b, .intE 1 => b
  | .intE 1, _ => .intE 1
  | b, e => .pow b e

/-- One-level flattening of nested `Mul` arguments (sympy `Mul.flatten`). -/
def mulFlat : List Expr → List Expr
  | [] => []
  | .mul xs :: rest => xs ++ mulFlat rest
  | x :: rest => x :: mulFlat rest

/-- The base of a factor, reading `b` from `b**e` (sympy `as_base_exp`). -/
def baseOf : Expr → Expr
  | .pow b _ => b
  | e => e

/-- The integer exponent of a factor, reading `k` from `b**k` and `1` from
a bare factor; `none` for a symbolic exponent. -/
def expOfI : Expr → Option Int
  | .pow _ (.intE k) => some k
  | .pow _ _ => none
  | _ => some 1

/-- Modelled from the spec: the external CAS's `Mul.flatten` combines
adjacent factors with equal bases and integer exponents,
`b**i * b**j = b**(i+j)`. -/
def combAdj : List Expr → List Expr
  | [] => []
  | x :: rest =>
    match combAdj rest with
    | [] => [x]
    | y :: rest2 =>
      match expOfI x, expOfI y with
      | some i, some j =>
        if beqE (baseOf x) (baseOf y) then mkPow (baseOf x) (.intE (i + j)) :: rest2
        else x :: y :: rest2
      | _, _ => x :: y :: rest2

/-- Modelled from the spec: the external CAS's n-ary `Mul(*args)`
constructor.  It flattens nested products, drops unit factors, absorbs a
zero factor, combines adjacent equal-base powers, and collapses the empty
and singleton products. -/
def mkMulL (l : List Expr) : Expr :=
  let l1 := mulFlat l
  if l1.any (fun x => beqE x (.intE 0)) then .intE 0
  else
    let l2 := combAdj (l1.filter (fun x => !(beqE x (.intE 1))))
    match l2.filter (fun x => !(beqE x (.intE 1))) with
    | [] => .intE 1
    | [x] => x
    | l3 => .mul l3

/-- One-level flattening of nested `Add` arguments. -/
def addFlat : List Expr → List Expr
  | [] => []
  | .add xs :: rest => xs ++ addFlat rest
  | x :: rest => x :: addFlat rest

/-- Modelled from the spec: the external CAS's n-ary `Add(*args)`
constructor: flattens nested sums, drops zero terms, collapses the empty
and singleton sums. -/
def mkAddL (l : List Expr) : Expr :=
  match (addFlat l).filter (fun x => !(beqE x (.intE 0))) with
  | [] => .intE 0
  | [x] => x
  | l2 => .add l2

/-- The binary sympy `+` used by `result += qapply(arg, **options)`. -/
def mkAdd2 (a b : Expr) : Expr :=
  mkAddL [a, b]

/-- Outcome of calling `lhs._apply_operator(rhs, **options)`: `exn` models
the `NotImplementedError`/`AttributeError` exceptions caught by
`qapply_Mul`, `ok r` a normal return (`r = none` being Python `None`). -/
inductive ApplyRes where
  | exn
  | ok (r : Option Expr)

/-- The external library callbacks invoked by `qapply.py`: `ap` is
`_apply_operator`, `ipDoit` is `InnerProduct.doit`, `expand` is
`e.expand(commutator=True, tensorproduct=True)`, `expandT` is
`.expand(tensorproduct=True)`, `dag` is `Dagger`. -/
structure QOracles where
  ap : Expr → Expr → ApplyRes
  ipDoit : Expr → Expr
  expand : Expr → Expr
  expandT : Expr → Expr
  dag : Expr → Expr

/-- The integer-exponent `Pow` reduction of `qapply_Mul` (qapply.py lines
129-131): replace the popped `lhs = b**k` by `b`, pushing `b**(k-1)` back
onto the remaining argument list. -/
def popPow : List Expr × Expr → List Expr × Expr
  | (args, .pow b (.intE k)) => (args ++ [mkPow b (.intE (k - 1))], b)
  | p => p

/-- The `OuterProduct` split of `qapply_Mul` (qapply.py lines 134-136):
replace the popped `lhs = OuterProduct(kk, bb)` by its bra `bb`, pushing
the ket `kk` back onto the remaining argument list. -/
def popOuter : List Expr × Expr → List Expr × Expr
  | (args, .outer kk bb) => (args ++ [kk], bb)
  | p => p

/-- Sequential `Option`-valued map, modelling a Python loop over the
argument list that propagates the first failure. -/
def mapMO {A : Type} (f : A → Option Expr) : List A → Option (List Expr)
  | [] => some []
  | x :: xs => do
    let y ← f x
    let ys ← mapMO f xs
    some (y :: ys)

/-- The try/except ladder of `qapply_Mul` (qapply.py lines 158-170): try
`lhs._apply_operator(rhs)`, on exception try `rhs._apply_operator(lhs)`,
on exception fall back to `InnerProduct(lhs, rhs)` (`.doit()` applied when
`ip_doit`) when `lhs` is a `BraBase` and `rhs` a `KetBase`, else `None`.
The returned value is the Python variable `result`. -/
def applyOrInner (O : QOracles) (ipdoit : Bool) (lhs rhs : Expr) : Option Expr :=
  match O.ap lhs rhs with
  | .ok r => r
  | .exn =>
    match O.ap rhs lhs with
    | .ok r => r
    | .exn =>
      if lhs.isBra && rhs.isKet then
        some (if ipdoit then O.ipDoit (.inner lhs rhs) else .inner lhs rhs)
      else none

/-- Guard of the tensor-product branch of `qapply_Mul`: both `lhs` and
`rhs` are `TensorProduct`s of the same length whose components are
operators (resp. states) or `1`; returns the component lists. -/
def tensorSplit (lhs rhs : Expr) : Option (List Expr × List Expr) :=
  match lhs, rhs with
  | .tensor ls, .tensor rs =>
    if (ls.all fun a => a.isOp || beqE a (.intE 1)) &&
       (rs.all fun a => a.isState || beqE a (.intE 1)) &&
       ls.length == rs.length
    then some (ls, rs) else none
  | _, _ => none

mutual

/-- Fuel-indexed embedding of `qapply(e, **options)` (qapply.py lines
30-108): zero short-circuit, expansion, raw-ket return, `Add`
distribution, `TensorProduct` componentwise recursion, `Pow`-base
recursion, `Mul` dispatch to `qapply_Mul` (with the `dagger` retry), and
identity on everything else.  `none` means the fuel ran out. -/
def qapplyF (O : QOracles) (dagger ipdoit : Bool) (fuel : Nat) (e0 : Expr) : Option Expr :=
  match fuel with
  | 0 => none
  | fuel + 1 =>
    if beqE e0 (.intE 0) then some (.intE 0)
    else
      let e := O.expand e0
      if e.isKet then some e
      else
        match e with
        | .add l => do
          let rs ← mapMO (qapplyF O dagger ipdoit fuel) l
          some (rs.foldl mkAdd2 (.intE 0))
        | .tensor l => do
          let rs ← mapMO (qapplyF O dagger ipdoit fuel) l
          some (.tensor rs)
        | .pow b ex => do
          let r ← qapplyF O dagger ipdoit fuel b
          some (mkPow r ex)
        | .mul l => do
          let r ← qapply_MulF O dagger ipdoit fuel (.mul l)
          if beqE r (.mul l) && dagger then do
            let r2 ← qapply_MulF O dagger ipdoit fuel (O.dag (.mul l))
            some (O.dag r2)
          else some r
        | other => some other
termination_by structural fuel

/-- Fuel-indexed embedding of `qapply_Mul(e, **options)` (qapply.py lines
111-184): pop the two rightmost factors, bail out on commutative factors,
reduce an integer-exponent `Pow`, split an `OuterProduct`, handle the
operator-tensor-product-on-state-tensor-product case, then run the
try/except application (`applyOrInner`) and dispatch on its `result`. -/
def qapply_MulF (O : QOracles) (dagger ipdoit : Bool) (fuel : Nat) (e : Expr) : Option Expr :=
  match fuel with
  | 0 => none
  | fuel + 1 =>
    let l := argsOf e
    if l.length ≤ 1 || !e.isMul then some e
    else
      match l.reverse with
      | rhs :: lhs0 :: restRev =>
        if isCommutative rhs || isCommutative lhs0 then some e
        else
          let args0 := restRev.reverse
          let p2 := popOuter (popPow (args0, lhs0))
          let args2 := p2.1
          let lhs2 := p2.2
          match tensorSplit lhs2 rhs with
          | some (ls, rs) => do
            let parts ← mapMO
              (fun pr => qapplyF O dagger ipdoit fuel (mkMulL [pr.1, pr.2])) (ls.zip rs)
            let result := O.expandT (.tensor parts)
            let q ← qapply_MulF O dagger ipdoit fuel (mkMulL args2)
            some (mkMulL [q, result])
          | none =>
            match applyOrInner O ipdoit lhs2 rhs with
            | some r =>
              if beqE r (.intE 0) then some (.intE 0)
              else if r.isInner then do
                let q ← qapply_MulF O dagger ipdoit fuel (mkMulL args2)
                some (mkMulL [r, q])
              else qapplyF O dagger ipdoit fuel (mkMulL (args2 ++ [r]))
            | none =>
              if args2.isEmpty then some e
              else do
                let q ← qapply_MulF O dagger ipdoit fuel (mkMulL (args2 ++ [lhs2]))
                some (mkMulL [q, rhs])
      | _ => some e
termination_by structural fuel

end

end QapplyModel

namespace TrigModel

/-- Shallow embedding of the sympy expression sublanguage that
`trigonometry.py` inspects and builds: symbols, integers, rationals,
binary sums/products, powers, the six trigonometric functions, `Eq`, and
`Piecewise((v1, g), (v2, True))` as `piecewise v1 g v2`. -/
inductive TExpr where
  | var (s : String)
  | intE (n : Int)
  | ratE (p q : Int)
  | add (a b : TExpr)
  | mul (a b : TExpr)
  | pow (a b : TExpr)
  | sin (a : TExpr)
  | cos (a : TExpr)
  | tan (a : TExpr)
  | sec (a : TExpr)
  | csc (a : TExpr)
  | cot (a : TExpr)
  | eq (a b : TExpr)
  | piecewise (v1 g v2 : TExpr)
deriving Repr, DecidableEq

/-- Modelled from the spec: the external CAS's `f.rewrite('sincos')`
(trigonometry.py line 59), which re-expresses `tan`, `sec`, `csc`, `cot`
in terms of `sin` and `cos` and leaves the rest of the tree unchanged. -/
def rewriteSincos : TExpr → TExpr
  | .var s => .var s
  | .intE n => .intE n
  | .ratE p q => .ratE p q
  | .add a b => .add (rewriteSincos a) (rewriteSincos b)
  | .mul a b => .mul (rewriteSincos a) (rewriteSincos b)
  | .pow a b => .pow (rewriteSincos a) (rewriteSincos b)
  | .sin a => .sin (rewriteSincos a)
  | .cos a => .cos (rewriteSincos a)
  | .tan a => .mul (.sin (rewriteSincos a)) (.pow (.cos (rewriteSincos a)) (.intE (-1)))
  | .sec a => .pow (.cos (rewriteSincos a)) (.intE (-1))
  | .csc a => .pow (.sin (rewriteSincos a)) (.intE (-1))
  | .cot a => .mul (.cos (rewriteSincos a)) (.pow (.sin (rewriteSincos a)) (.intE (-1)))
  | .eq a b => .eq (rewriteSincos a) (rewriteSincos b)
  | .piecewise a b c => .piecewise (rewriteSincos a) (rewriteSincos b) (rewriteSincos c)

/-- The symbol `s` does not occur in the expression (the `exclude=[x]`
condition on the Wild symbols of `_pat_sincos`). -/
def xFree (s : String) : TExpr → Bool
  | .var y => y ≠ s
  | .intE _ => true
  | .ratE _ _ => true
  | .add a b => xFree s a && xFree s b
  | .mul a b => xFree s a && xFree s b
  | .pow a b => xFree s a && xFree s b
  | .sin a => xFree s a
  | .cos a => xFree s a
  | .tan a => xFree s a
  | .sec a => xFree s a
  | .csc a => xFree s a
  | .cot a => xFree s a
  | .eq a b => xFree s a && xFree s b
  | .piecewise a b c => xFree s a && xFree s b && xFree s c

/-- The multiplicative factors of a binary product tree; the unit factor
`1` contributes nothing. -/
def mulFactors : TExpr → List TExpr
  | .mul a b => mulFactors a ++ mulFactors b
  | .intE 1 => []
  | e => [e]

/-- Classify one factor as `sin(g)**k` (flag `true`) or `cos(g)**k`
(flag `false`), reading a bare `sin g`/`cos g` as exponent `1`. -/
def classifyFactor : TExpr → Option (Bool × TExpr × Int)
  | .sin g => some (true, g, 1)
  | .cos g => some (false, g, 1)
  | .pow (.sin g) (.intE k) => some (true, g, k)
  | .pow (.cos g) (.intE k) => some (false, g, k)
  | _ => none

/-- Collect at most one sine factor and one cosine factor from a factor
list; anything else fails the match. -/
def collectSC : List TExpr → Option (Option (TExpr × Int) × Option (TExpr × Int))
  | [] => some (none, none)
  | f :: rest => do
    let (s, c) ← collectSC rest
    let (isSin, g, k) ← classifyFactor f
    if isSin then
      match s with
      | none => some (some (g, k), c)
      | some _ => none
    else
      match c with
      | none => some (s, some (g, k))
      | some _ => none

/-- Read the `x`-free coefficient `a` out of the trigonometric argument
`a*x` (the Wild `a` with `exclude=[x]`). -/
def argCoeff (x : String) : TExpr → Option TExpr
  | .var y => if y = x then some (.intE 1) else none
  | .mul c (.var y) => if y = x ∧ xFree x c then some c else none
  | _ => none

/-- Modelled from the spec: the external matcher applied to the cached
pattern `sin(a*x)**n * cos(a*x)**m` of `_pat_sincos` (trigonometry.py
lines 18-24), with `a` an `x`-free Wild and `n`, `m` integer Wilds.
Returns `(a, n, m)` on success; when the expression is the empty product
`1` both exponents match as `0` and the unconstrained `a` is reported as
`0` (the code never reads `a` in that case). -/
def matchSinCos (x : String) (f : TExpr) : Option (TExpr × Int × Int) :=
  match collectSC (mulFactors f) with
  | none => none
  | some (none, none) => some (.intE 0, 0, 0)
  | some (some (g, n), none) => do
    let a ← argCoeff x g
    some (a, n, 0)
  | some (none, some (g, m)) => do
    let a ← argCoeff x g
    some (a, 0, m)
  | some (some (g, n), some (g2, m)) =>
    if g = g2 then do
      let a ← argCoeff x g
      some (a, n, m)
    else none

/-- Structural substitution of the symbol `s` by `r` (sympy `.subs`). -/
def subsT (s : String) (r : TExpr) : TExpr → TExpr
  | .var y => if y = s then r else .var y
  | .intE n => .intE n
  | .ratE p q => .ratE p q
  | .add a b => .add (subsT s r a) (subsT s r b)
  | .mul a b => .mul (subsT s r a) (subsT s r b)
  | .pow a b => .pow (subsT s r a) (subsT s r b)
  | .sin a => .sin (subsT s r a)
  | .cos a => .cos (subsT s r a)
  | .tan a => .tan (subsT s r a)
  | .sec a => .sec (subsT s r a)
  | .csc a => .csc (subsT s r a)
  | .cot a => .cot (subsT s r a)
  | .eq a b => .eq (subsT s r a) (subsT s r b)
  | .piecewise a b c => .piecewise (subsT s r a) (subsT s r b) (subsT s r c)

/-- Modelled from the spec: the external CAS's `**` with the trivial
evaluations `b**0 = 1`, `b**1 = b`, `1**e = 1`. -/
def mkPowT : TExpr → TExpr → TExpr
  | _, .intE 0 => .intE 1
  | b, .intE 1 => b
  | .intE 1, _ => .intE 1
  | b, e => .pow b e

/-- Modelled from the spec: the external CAS's binary `*` with unit and
zero absorption. -/
def mkMulT : TExpr → TExpr → TExpr
  | .intE 0, _ => .intE 0
  | _, .intE 0 => .intE 0
  | .intE 1, b => b
  | a, .intE 1 => a
  | a, b => .mul a b

/-- Modelled from the spec: the external CAS's binary `+` with zero
elimination. -/
def mkAddT : TExpr → TExpr → TExpr
  | .intE 0, b => b
  | a, .intE 0 => a
  | a, b => .add a b

/-- Modelled from the spec: sympy `Rational(p, q)`: sign on the
numerator, lowest terms, and collapse to an `Integer` when the reduced
denominator is `1`. -/
def mkRat (p q : Int) : TExpr :=
  if q = 0 then .ratE p q
  else
    let s : Int := if q < 0 then -1 else 1
    let p1 := s * p
    let q1 := s * q
    let g : Int := Int.gcd p1 q1
    let p2 := p1 / g
    let q2 := q1 / g
    if q2 = 1 then .intE p2 else .ratE p2 q2

/-- sympy `f / a`, i.e. `f * a**(-1)`. -/
def divT (f a : TExpr) : TExpr :=
  mkMulT f (mkPowT a (.intE (-1)))

/-- Outcome of a fuel-indexed run of `trigintegrate` and its helpers:
`out` means the fuel ran out, `exn` models a Python exception raised by
using a `None` sub-result in arithmetic, `res v` is a normal return with
`v = none` standing for Python `None`. -/
inductive TRes where
  | out
  | exn
  | res (v : Option TExpr)
deriving Repr, DecidableEq

/-- Use the value of a sub-computation in further arithmetic: a `None`
value raises (`exn`), fuel exhaustion and exceptions propagate. -/
def TRes.bindE : TRes → (TExpr → TRes) → TRes
  | .out, _ => .out
  | .exn, _ => .exn
  | .res none, _ => .exn
  | .res (some v), k => k v

/-- The external library callback used by `trigonometry.py`: `intg f s`
is `integrate(f, Symbol(s))` from `sympy.integrals.integrals`. -/
structure TOracles where
  intg : TExpr → String → TExpr

/-- The accumulation loop `res += coeff * term` over a list of already
computed terms with their integer coefficients, starting from `acc`
(`res = S.Zero` at the first call). -/
def combineTerms (acc : TExpr) : List (TRes × Int) → TRes
  | [] => .res (some acc)
  | (t, c) :: rest => t.bindE fun v => combineTerms (mkAddT acc (mkMulT (.intE c) v)) rest

/-- The module-level Dummy `_u` of trigonometry.py. -/
def uName : String := "_u"

mutual

/-- Fuel-indexed embedding of `trigintegrate(f, x, conds)`
(trigonometry.py lines 29-225) with `pw` standing for
`conds == 'piecewise'`: rewrite in sin/cos, match against
`sin(a*x)**n * cos(a*x)**m`, return `None` on no match, `x` when both
exponents are zero, the substitution rule for an odd exponent, and the
even-exponent reduction machinery (binomial expansion into
`_sin_pow_integrate`/`_cos_pow_integrate` sums, the negative-exponent
recursive reductions, and the `|n| == |m|` cases), wrapped in
`Piecewise((zz, Eq(a, 0)), (res/a, True))` when `pw`. -/
def trigF (O : TOracles) (x : String) (pw : Bool) (fuel : Nat) (f : TExpr) : TRes :=
  match fuel with
  | 0 => .out
  | fuel + 1 =>
    match matchSinCos x (rewriteSincos f) with
    | none => .res none
    | some (a, n, m) =>
      if n = 0 ∧ m = 0 then .res (some (.var x))
      else
        let zz : TExpr := if n = 0 then .var x else .intE 0
        let X : TExpr := .var x
        if n % 2 ≠ 0 ∨ m % 2 ≠ 0 then
          let nOdd : Bool := n % 2 ≠ 0
          let mOdd : Bool := m % 2 ≠ 0
          let pick : Bool × Bool :=
            if nOdd && mOdd then (decide (n < m), !(decide (n < m))) else (nOdd, mOdd)
          let u : TExpr := .var uName
          let oneMinusU2 : TExpr := mkAddT (.intE 1) (mkMulT (.intE (-1)) (mkPowT u (.intE 2)))
          let ff : TExpr :=
            if pick.1 then
              mkMulT (.intE (-1)) (mkMulT (mkPowT oneMinusU2 (.intE ((n - 1) / 2))) (mkPowT u (.intE m)))
            else
              mkMulT (mkPowT u (.intE n)) (mkPowT oneMinusU2 (.intE ((m - 1) / 2)))
          let uu : TExpr := if pick.1 then .cos (mkMulT a X) else .sin (mkMulT a X)
          let fx := subsT uName uu (O.intg ff uName)
          if pw then .res (some (.piecewise zz (.eq a (.intE 0)) (divT fx a)))
          else .res (some (divT fx a))
        else
          let bigN : Bool := n.natAbs > m.natAbs
          let bigM : Bool := m.natAbs > n.natAbs
          let resR : TRes :=
            if bigN then
              if m > 0 then
                combineTerms (.intE 0)
                  ((List.range ((m / 2).toNat + 1)).map fun (i : Nat) =>
                    (sinPowF O x fuel (n + 2 * (i : Int)),
                     (-1 : Int) ^ i * ((m / 2).toNat.choose i : Int)))
              else if m = 0 then sinPowF O x fuel n
              else
                (trigF O x true fuel
                  (mkMulT (mkPowT (.cos X) (.intE (m + 2))) (mkPowT (.sin X) (.intE (n - 2))))).bindE
                  fun r =>
                    .res (some (mkAddT
                      (mkMulT (mkRat (-1) (m + 1))
                        (mkMulT (mkPowT (.cos X) (.intE (m + 1))) (mkPowT (.sin X) (.intE (n - 1)))))
                      (mkMulT (mkRat (n - 1) (m + 1)) r)))
            else if bigM then
              if n > 0 then
                combineTerms (.intE 0)
                  ((List.range ((n / 2).toNat + 1)).map fun (i : Nat) =>
                    (cosPowF O x fuel (m + 2 * (i : Int)),
                     (-1 : Int) ^ i * ((n / 2).toNat.choose i : Int)))
              else if n = 0 then cosPowF O x fuel m
              else
                (trigF O x true fuel
                  (mkMulT (mkPowT (.cos X) (.intE (m - 2))) (mkPowT (.sin X) (.intE (n + 2))))).bindE
                  fun r =>
                    .res (some (mkAddT
                      (mkMulT (mkRat 1 (n + 1))
                        (mkMulT (mkPowT (.cos X) (.intE (m - 1))) (mkPowT (.sin X) (.intE (n + 1)))))
                      (mkMulT (mkRat (m - 1) (n + 1)) r)))
            else
              if m = n then
                .res (some (O.intg (mkPowT (mkMulT (mkRat 1 2) (.sin (mkMulT (.intE 2) X))) (.intE m)) x))
              else if m = -n then
                if n < 0 then
                  .res (some (mkAddT
                    (mkMulT (mkRat 1 (n + 1))
                      (mkMulT (mkPowT (.cos X) (.intE (m - 1))) (mkPowT (.sin X) (.intE (n + 1)))))
                    (mkMulT (mkRat (m - 1) (n + 1))
                      (O.intg (mkMulT (mkPowT (.cos X) (.intE (m - 2))) (mkPowT (.sin X) (.intE (n + 2)))) x))))
                else
                  .res (some (mkAddT
                    (mkMulT (mkRat (-1) (m + 1))
                      (mkMulT (mkPowT (.cos X) (.intE (m + 1))) (mkPowT (.sin X) (.intE (n - 1)))))
                    (mkMulT (mkRat (n - 1) (m + 1))
                      (O.intg (mkMulT (mkPowT (.cos X) (.intE (m + 2))) (mkPowT (.sin X) (.intE (n - 2)))) x))))
              else .res (some (.intE 0))
          resR.bindE fun r =>
            if pw then .res (some (.piecewise zz (.eq a (.intE 0)) (divT (subsT x (mkMulT a X) r) a)))
            else .res (some (divT (subsT x (mkMulT a X) r) a))
termination_by structural fuel

/-- Fuel-indexed embedding of `_sin_pow_integrate(n, x)` (trigonometry.py
lines 228-270). -/
def sinPowF (O : TOracles) (x : String) (fuel : Nat) (n : Int) : TRes :=
  match fuel with
  | 0 => .out
  | fuel + 1 =>
    let X : TExpr := .var x
    if n > 0 then
      if n = 1 then .res (some (mkMulT (.intE (-1)) (.cos X)))
      else
        (sinPowF O x fuel (n - 2)).bindE fun r =>
          .res (some (mkAddT
            (mkMulT (mkRat (-1) n) (mkMulT (.cos X) (mkPowT (.sin X) (.intE (n - 1)))))
            (mkMulT (mkRat (n - 1) n) r)))
    else if n < 0 then
      if n = -1 then trigF O x true fuel (mkPowT (.sin X) (.intE (-1)))
      else
        (sinPowF O x fuel (n + 2)).bindE fun r =>
          .res (some (mkAddT
            (mkMulT (mkRat 1 (n + 1)) (mkMulT (.cos X) (mkPowT (.sin X) (.intE (n + 1)))))
            (mkMulT (mkRat (n + 2) (n + 1)) r)))
    else .res (some X)
termination_by structural fuel

/-- Fuel-indexed embedding of `_cos_pow_integrate(n, x)` (trigonometry.py
lines 273-312). -/
def cosPowF (O : TOracles) (x : String) (fuel : Nat) (n : Int) : TRes :=
  match fuel with
  | 0 => .out
  | fuel + 1 =>
    let X : TExpr := .var x
    if n > 0 then
      if n = 1 then .res (some (.sin X))
      else
        (cosPowF O x fuel (n - 2)).bindE fun r =>
          .res (some (mkAddT
            (mkMulT (mkRat 1 n) (mkMulT (.sin X) (mkPowT (.cos X) (.intE (n - 1)))))
            (mkMulT (mkRat (n - 1) n) r)))
    else if n < 0 then
      if n = -1 then trigF O x true fuel (mkPowT (.cos X) (.intE (-1)))
      else
        (cosPowF O x fuel (n + 2)).bindE fun r =>
          .res (some (mkAddT
            (mkMulT (mkRat (-1) (n + 1)) (mkMulT (.sin X) (mkPowT (.cos X) (.intE (n + 1)))))
            (mkMulT (mkRat (n + 2) (n + 1)) r)))
    else .res (some X)
termination_by structural fuel

end

/-- A concrete instantiation of the `integrate` callback (it returns its
argument unchanged), used to evaluate the embedding on closed inputs. -/
def idIntg : TOracles where
  intg := fun f _ => f

/-- `isinstance(e, Piecewise)`. -/
def TExpr.isPiecewise : TExpr → Bool
  | .piecewise _ _ _ => true
  | _ => false

/-- The run produced a value (neither fuel exhaustion, nor an exception,
nor Python `None`). -/
def TRes.isRes : TRes → Bool
  | .res (some _) => true
  | _ => false

end TrigModel

namespace QapplyModel

/-- A concrete instantiation of the `qapply` callbacks in which every
`_apply_operator` call raises (`NotImplementedError`/`AttributeError`),
`InnerProduct.doit` returns the symbolic inner product unchanged (the
generic `BraBase`/`KetBase` behaviour), and expansion and `Dagger` leave
the expression unchanged. -/
def exnO : QOracles where
  ap := fun _ _ => .exn
  ipDoit := id
  expand := id
  expandT := id
  dag := id

mutual

/-- Whether an `InnerProduct` node occurs anywhere in the expression. -/
def containsInner : Expr → Bool
  | .inner _ _ => true
  | .add l => listCInner l
  | .mul l => listCInner l
  | .tensor l => listCInner l
  | .pow a b => containsInner a || containsInner b
  | .outer a b => containsInner a || containsInner b
  | _ => false

/-- Whether an `InnerProduct` node occurs in any member of the list. -/
def listCInner : List Expr → Bool
  | [] => false
  | x :: xs => containsInner x || listCInner xs

end

mutual

/-- Termination measure on expressions: atoms weigh `1`, compound nodes
weigh one more than their arguments, and an integer power `b**k` weighs
`|k|` copies of its base (so that splitting off one factor of the base
does not increase the weight). -/
def sizeQ : Expr → Nat
  | .sym _ => 1
  | .intE _ => 1
  | .op _ => 1
  | .ket _ => 1
  | .bra _ => 1
  | .add l => 1 + sizeL l
  | .mul l => 1 + sizeL l
  | .tensor l => 1 + sizeL l
  | .pow b (.intE k) => k.natAbs * sizeQ b
  | .pow b e => 1 + sizeQ b + sizeQ e
  | .outer a b => 1 + sizeQ a + sizeQ b
  | .inner a b => 1 + sizeQ a + sizeQ b

/-- Sum of `sizeQ` over a list. -/
def sizeL : List Expr → Nat
  | [] => 0
  | x :: xs => sizeQ x + sizeL xs

end

mutual

/-- Well-formed expressions for the termination theorem: every power with
an integer exponent has exponent at least `2` (sympy's `Pow` never keeps
exponent `0` or `1`, and negative integer powers of outer products are
exactly the expressions on which the claim fails). -/
def wfQ : Expr → Bool
  | .sym _ => true
  | .intE _ => true
  | .op _ => true
  | .ket _ => true
  | .bra _ => true
  | .add l => wfL l
  | .mul l => wfL l
  | .tensor l => wfL l
  | .pow b (.intE k) => decide (2 ≤ k) && wfQ b
  | .pow b e => wfQ b && wfQ e
  | .outer a b => wfQ a && wfQ b
  | .inner a b => wfQ a && wfQ b

/-- All members of the list are well-formed. -/
def wfL : List Expr → Bool
  | [] => true
  | x :: xs => wfQ x && wfL xs

end

/-- `qapply(e, **options)` terminates: some amount of fuel suffices. -/
def QTerminates (O : QOracles) (dagger ipdoit : Bool) (e : Expr) : Prop :=
  ∃ fuel r, qapplyF O dagger ipdoit fuel e = some r

end QapplyModel

namespace TrigModel

theorem TRes.isRes_iff (z : TRes) : z.isRes = true ↔ ∃ v, z = .res (some v) := by
  cases z with
  | out => simp [TRes.isRes]
  | exn => simp [TRes.isRes]
  | res v => cases v <;> simp [TRes.isRes]

theorem TRes.isRes_bindE (z : TRes) (k : TExpr → TRes) (hz : z.isRes = true)
    (hk : ∀ v, (k v).isRes = true) : (z.bindE k).isRes = true := by
  rw [TRes.isRes_iff] at hz
  obtain ⟨v, rfl⟩ := hz
  simpa [TRes.bindE] using hk v

theorem TRes.bindE_eq_res (z : TRes) (k : TExpr → TRes) (v : Option TExpr)
    (h : z.bindE k = .res v) : ∃ r, z = .res (some r) ∧ k r = .res v := by
  cases z with
  | out => simp [TRes.bindE] at h
  | exn => simp [TRes.bindE] at h
  | res w =>
    cases w with
    | none => simp [TRes.bindE] at h
    | some r => exact ⟨r, rfl, h⟩

theorem trigF_inv_sin_total (O : TOracles) (x : String) (fuel : Nat) :
    (trigF O x true (fuel + 1) (mkPowT (.sin (.var x)) (.intE (-1)))).isRes = true := by
  simp [trigF, mkPowT, rewriteSincos, matchSinCos, mulFactors, collectSC, classifyFactor,
    argCoeff, mkMulT, divT, subsT, TRes.isRes]

theorem trigF_inv_cos_total (O : TOracles) (x : String) (fuel : Nat) :
    (trigF O x true (fuel + 1) (mkPowT (.cos (.var x)) (.intE (-1)))).isRes = true := by
  simp [trigF, mkPowT, rewriteSincos, matchSinCos, mulFactors, collectSC, classifyFactor,
    argCoeff, mkMulT, divT, subsT, TRes.isRes]

theorem sin_cos_pow_total (O : TOracles) (x : String) :
    ∀ (k : Nat) (n : Int) (fuel : Nat), n.natAbs ≤ k → n.natAbs + 2 ≤ fuel →
      (sinPowF O x fuel n).isRes = true ∧ (cosPowF O x fuel n).isRes = true := by
  intro k
  induction k using Nat.strong_induction_on with
  | _ k IH =>
    intro n fuel hk hf
    obtain ⟨f, rfl⟩ : ∃ f, fuel = f + 1 := ⟨fuel - 1, by omega⟩
    constructor
    · by_cases h1 : (0:Int) < n
      · by_cases h2 : n = 1
        · subst h2; simp [sinPowF, TRes.isRes]
        · have hrec := (IH ((n-2).natAbs) (by omega) (n-2) f (le_refl _) (by omega)).1
          rw [TRes.isRes_iff] at hrec
          obtain ⟨v, hv⟩ := hrec
          simp only [sinPowF]
          rw [if_pos h1, if_neg h2, hv]
          simp [TRes.bindE, TRes.isRes]
      · by_cases h3 : n < 0
        · by_cases h4 : n = -1
          · subst h4
            obtain ⟨g, rfl⟩ : ∃ g, f = g + 1 := ⟨f - 1, by omega⟩
            simp only [sinPowF]
            norm_num
            exact trigF_inv_sin_total O x g
          · have hrec := (IH ((n+2).natAbs) (by omega) (n+2) f (le_refl _) (by omega)).1
            rw [TRes.isRes_iff] at hrec
            obtain ⟨v, hv⟩ := hrec
            simp only [sinPowF]
            rw [if_neg h1, if_pos h3, if_neg h4, hv]
            simp [TRes.bindE, TRes.isRes]
        · have h0 : n = 0 := by omega
          subst h0; simp [sinPowF, TRes.isRes]
    · by_cases h1 : (0:Int) < n
      · by_cases h2 : n = 1
        · subst h2; simp [cosPowF, TRes.isRes]
        · have hrec := (IH ((n-2).natAbs) (by omega) (n-2) f (le_refl _) (by omega)).2
          rw [TRes.isRes_iff] at hrec
          obtain ⟨v, hv⟩ := hrec
          simp only [cosPowF]
          rw [if_pos h1, if_neg h2, hv]
          simp [TRes.bindE, TRes.isRes]
      · by_cases h3 : n < 0
        · by_cases h4 : n = -1
          · subst h4
            obtain ⟨g, rfl⟩ : ∃ g, f = g + 1 := ⟨f - 1, by omega⟩
            simp only [cosPowF]
            norm_num
            exact trigF_inv_cos_total O x g
          · have hrec := (IH ((n+2).natAbs) (by omega) (n+2) f (le_refl _) (by omega)).2
            rw [TRes.isRes_iff] at hrec
            obtain ⟨v, hv⟩ := hrec
            simp only [cosPowF]
            rw [if_neg h1, if_pos h3, if_neg h4, hv]
            simp [TRes.bindE, TRes.isRes]
        · have h0 : n = 0 := by omega
          subst h0; simp [cosPowF, TRes.isRes]

theorem combineTerms_isRes (l : List (TRes × Int)) (h : ∀ p ∈ l, (p.1).isRes = true) :
    ∀ acc, (combineTerms acc l).isRes = true := by
  induction l with
  | nil => intro acc; simp [combineTerms, TRes.isRes]
  | cons p rest ih =>
    intro acc
    have hp := h p (by simp)
    rw [TRes.isRes_iff] at hp
    obtain ⟨v, hv⟩ := hp
    obtain ⟨t, c⟩ := p
    simp only at hv
    simp only [combineTerms, hv, TRes.bindE]
    exact ih (fun q hq => h q (by simp [hq])) _

theorem matchSinCos_cos_sin_pow (x : String) (p q : Int)
    (hq1 : q ≠ 1) (hp1 : p ≠ 1) (hne : ¬ (p = 0 ∧ q = 0)) :
    matchSinCos x (rewriteSincos
      (mkMulT (mkPowT (.cos (.var x)) (.intE p)) (mkPowT (.sin (.var x)) (.intE q))))
      = some (.intE 1, q, p) := by
  by_cases hp : p = 0
  · subst hp
    have hq : ¬ q = 0 := fun h => hne ⟨rfl, h⟩
    simp [mkPowT, mkMulT, rewriteSincos, matchSinCos, mulFactors, collectSC, classifyFactor,
      argCoeff, hq, hq1]
  · by_cases hq : q = 0
    · subst hq
      simp [mkPowT, mkMulT, rewriteSincos, matchSinCos, mulFactors, collectSC, classifyFactor,
        argCoeff, hp, hp1]
    · simp [mkPowT, mkMulT, rewriteSincos, matchSinCos, mulFactors, collectSC, classifyFactor,
        argCoeff, hp, hp1, hq, hq1]

theorem trig_total (O : TOracles) (x : String) :
    ∀ (k : Nat) (pw : Bool) (f : TExpr) (a : TExpr) (n m : Int) (fuel : Nat),
      matchSinCos x (rewriteSincos f) = some (a, n, m) →
      n.natAbs + m.natAbs + 2 * min n.natAbs m.natAbs ≤ k →
      n.natAbs + m.natAbs + 2 * min n.natAbs m.natAbs + 3 ≤ fuel →
      (trigF O x pw fuel f).isRes = true := by
  intro k
  induction k using Nat.strong_induction_on with
  | _ k IH =>
    intro pw f a n m fuel hm hk hf
    obtain ⟨g, rfl⟩ : ∃ g, fuel = g + 1 := ⟨fuel - 1, by omega⟩
    simp only [trigF, hm]
    by_cases hz : n = 0 ∧ m = 0
    · rw [if_pos hz]; simp [TRes.isRes]
    · rw [if_neg hz]
      by_cases hodd : n % 2 ≠ 0 ∨ m % 2 ≠ 0
      · rw [if_pos hodd]
        cases pw <;> simp [TRes.isRes]
      · rw [if_neg hodd]
        push_neg at hodd
        obtain ⟨hne, hme⟩ := hodd
        apply TRes.isRes_bindE
        · by_cases hbn : n.natAbs > m.natAbs
          · simp only [hbn, decide_True, if_true]
            by_cases hmp : m > 0
            · rw [if_pos hmp]
              apply combineTerms_isRes
              intro p hp
              simp only [List.mem_map, List.mem_range] at hp
              obtain ⟨i, hi, rfl⟩ := hp
              exact (sin_cos_pow_total O x (n + 2 * (i : Int)).natAbs (n + 2 * (i : Int)) g
                (le_refl _) (by omega)).1
            · rw [if_neg hmp]
              by_cases hm0 : m = 0
              · rw [if_pos hm0]
                exact (sin_cos_pow_total O x n.natAbs n g (le_refl _) (by omega)).1
              · rw [if_neg hm0]
                apply TRes.isRes_bindE
                · exact IH ((n - 2).natAbs + (m + 2).natAbs +
                      2 * min (n - 2).natAbs (m + 2).natAbs) (by omega) true _ (.intE 1)
                      (n - 2) (m + 2) g
                      (matchSinCos_cos_sin_pow x (m + 2) (n - 2) (by omega) (by omega)
                        (by omega)) (le_refl _) (by omega)
                · intro v; simp [TRes.isRes]
          · rw [if_neg (show ¬ (decide (n.natAbs > m.natAbs)) = true by simp [hbn])]
            by_cases hbm : m.natAbs > n.natAbs
            · simp only [hbm, decide_True, if_true]
              by_cases hnp : n > 0
              · rw [if_pos hnp]
                apply combineTerms_isRes
                intro p hp
                simp only [List.mem_map, List.mem_range] at hp
                obtain ⟨i, hi, rfl⟩ := hp
                exact (sin_cos_pow_total O x (m + 2 * (i : Int)).natAbs (m + 2 * (i : Int)) g
                  (le_refl _) (by omega)).2
              · rw [if_neg hnp]
                by_cases hn0 : n = 0
                · rw [if_pos hn0]
                  exact (sin_cos_pow_total O x m.natAbs m g (le_refl _) (by omega)).2
                · rw [if_neg hn0]
                  apply TRes.isRes_bindE
                  · exact IH ((n + 2).natAbs + (m - 2).natAbs +
                        2 * min (n + 2).natAbs (m - 2).natAbs) (by omega) true _ (.intE 1)
                        (n + 2) (m - 2) g
                        (matchSinCos_cos_sin_pow x (m - 2) (n + 2) (by omega) (by omega)
                          (by omega)) (le_refl _) (by omega)
                  · intro v; simp [TRes.isRes]
            · rw [if_neg (show ¬ (decide (m.natAbs > n.natAbs)) = true by simp [hbm])]
              split_ifs <;> simp [TRes.isRes]
        · intro v
          cases pw <;> simp [TRes.isRes]

end TrigModel

namespace TrigModel

/-- C3: `_sin_pow_integrate` implements the textbook sine power-reduction
identity: for every integer `n > 1` it returns
`Rational(-1, n)*cos(x)*sin(x)**(n-1) + Rational(n-1, n)*_sin_pow_integrate(n-2, x)`
(the sub-result entering the arithmetic through `bindE`), with base cases
`_sin_pow_integrate(1, x) = -cos(x)` and `_sin_pow_integrate(0, x) = x`. -/
theorem sin_pow_integrate_spec (O : TOracles) (x : String) (fuel : Nat) (n : Int)
    (h : 1 < n) :
    sinPowF O x (fuel + 1) n
      = (sinPowF O x fuel (n - 2)).bindE (fun r =>
          .res (some (mkAddT
            (mkMulT (mkRat (-1) n) (mkMulT (.cos (.var x)) (mkPowT (.sin (.var x)) (.intE (n - 1)))))
            (mkMulT (mkRat (n - 1) n) r))))
    ∧ sinPowF O x (fuel + 1) 1 = .res (some (mkMulT (.intE (-1)) (.cos (.var x))))
    ∧ sinPowF O x (fuel + 1) 0 = .res (some (.var x)) := by
  refine ⟨?_, ?_, ?_⟩
  · simp only [sinPowF]
    rw [if_pos (by omega : (0:Int) < n), if_neg (by omega : ¬ n = 1)]
  · simp [sinPowF]
  · simp [sinPowF]

/-- Witness for C3 at `n = 3`. -/
theorem sin_pow_integrate_spec_witness :
    (sinPowF idIntg "x" 5 3
      = (sinPowF idIntg "x" 4 1).bindE (fun r =>
          .res (some (mkAddT
            (mkMulT (mkRat (-1) 3) (mkMulT (.cos (.var "x")) (mkPowT (.sin (.var "x")) (.intE 2))))
            (mkMulT (mkRat 2 3) r))))
    ∧ sinPowF idIntg "x" 5 1 = .res (some (mkMulT (.intE (-1)) (.cos (.var "x"))))
    ∧ sinPowF idIntg "x" 5 0 = .res (some (.var "x"))) :=
  sin_pow_integrate_spec idIntg "x" 4 3 (by decide)

/-- C7: `_cos_pow_integrate` implements the textbook cosine power-reduction
identity: for every integer `n > 1` it returns
`Rational(1, n)*sin(x)*cos(x)**(n-1) + Rational(n-1, n)*_cos_pow_integrate(n-2, x)`,
with base cases `_cos_pow_integrate(1, x) = sin(x)` and
`_cos_pow_integrate(0, x) = x`. -/
theorem cos_pow_integrate_spec (O : TOracles) (x : String) (fuel : Nat) (n : Int)
    (h : 1 < n) :
    cosPowF O x (fuel + 1) n
      = (cosPowF O x fuel (n - 2)).bindE (fun r =>
          .res (some (mkAddT
            (mkMulT (mkRat 1 n) (mkMulT (.sin (.var x)) (mkPowT (.cos (.var x)) (.intE (n - 1)))))
            (mkMulT (mkRat (n - 1) n) r))))
    ∧ cosPowF O x (fuel + 1) 1 = .res (some (.sin (.var x)))
    ∧ cosPowF O x (fuel + 1) 0 = .res (some (.var x)) := by
  refine ⟨?_, ?_, ?_⟩
  · simp only [cosPowF]
    rw [if_pos (by omega : (0:Int) < n), if_neg (by omega : ¬ n = 1)]
  · simp [cosPowF]
  · simp [cosPowF]

/-- Witness for C7 at `n = 4`. -/
theorem cos_pow_integrate_spec_witness :
    (cosPowF idIntg "x" 5 4
      = (cosPowF idIntg "x" 4 2).bindE (fun r =>
          .res (some (mkAddT
            (mkMulT (mkRat 1 4) (mkMulT (.sin (.var "x")) (mkPowT (.cos (.var "x")) (.intE 3))))
            (mkMulT (mkRat 3 4) r))))
    ∧ cosPowF idIntg "x" 5 1 = .res (some (.sin (.var "x")))
    ∧ cosPowF idIntg "x" 5 0 = .res (some (.var "x"))) :=
  cos_pow_integrate_spec idIntg "x" 4 4 (by decide)

/-- C4: for every integer `n`, `_sin_pow_integrate(n, x)` and
`_cos_pow_integrate(n, x)` terminate: each recursive call replaces `n` by
`n-2` (when `n > 1`) or `n+2` (when `n < -1`), so fuel `|n| + 2` always
suffices to reach a base case in `{1, 0, -1}` and return a value. -/
theorem sin_cos_pow_integrate_terminate (O : TOracles) (x : String) (n : Int) (fuel : Nat)
    (h : n.natAbs + 2 ≤ fuel) :
    (∃ v, sinPowF O x fuel n = .res (some v)) ∧ (∃ v, cosPowF O x fuel n = .res (some v)) := by
  have h2 := sin_cos_pow_total O x n.natAbs n fuel (le_refl _) h
  exact ⟨(TRes.isRes_iff _).1 h2.1, (TRes.isRes_iff _).1 h2.2⟩

/-- Witness for C4 at `n = -5`. -/
theorem sin_cos_pow_integrate_terminate_witness :
    (∃ v, sinPowF idIntg "x" 9 (-5) = .res (some v))
    ∧ (∃ v, cosPowF idIntg "x" 9 (-5) = .res (some v)) :=
  sin_cos_pow_integrate_terminate idIntg "x" (-5) 9 (by decide)

/-- C8: `trigintegrate(f, x, conds)` returns `None` exactly when `f`,
rewritten in sin/cos, does not match `sin(a*x)**n * cos(a*x)**m`: on a
non-matching input it returns `None` immediately (raising no exception),
and on any matching input with enough fuel it returns a value (never
`None`, never an exception). -/
theorem trigintegrate_none_iff (O : TOracles) (x : String) (pw : Bool) (f : TExpr) :
    (matchSinCos x (rewriteSincos f) = none → ∀ fuel, 1 ≤ fuel → trigF O x pw fuel f = .res none)
    ∧ (∀ a n m fuel, matchSinCos x (rewriteSincos f) = some (a, n, m) →
        n.natAbs + m.natAbs + 2 * min n.natAbs m.natAbs + 3 ≤ fuel →
        ∃ v, trigF O x pw fuel f = .res (some v)) := by
  constructor
  · intro hm fuel hf
    obtain ⟨g, rfl⟩ : ∃ g, fuel = g + 1 := ⟨fuel - 1, by omega⟩
    simp [trigF, hm]
  · intro a n m fuel hm hf
    exact (TRes.isRes_iff _).1 (trig_total O x
      (n.natAbs + m.natAbs + 2 * min n.natAbs m.natAbs) pw f a n m fuel hm (le_refl _) hf)

/-- Witness for C8: the symbol `y` does not match (result `None`), while
`sin(x)` matches and integrates to a value. -/
theorem trigintegrate_none_iff_witness :
    trigF idIntg "x" true 1 (.var "y") = .res none
    ∧ ∃ v, trigF idIntg "x" true 4 (.sin (.var "x")) = .res (some v) :=
  ⟨(trigintegrate_none_iff idIntg "x" true (.var "y")).1 (by decide) 1 (by decide),
   (trigintegrate_none_iff idIntg "x" true (.sin (.var "x"))).2 (.intE 1) 1 0 4 (by decide)
     (by decide)⟩

/-- C9 counterexample: `trigintegrate(1, x)` matches with both exponents
zero, and with the default `conds = 'piecewise'` returns the plain symbol
`x`, not a `Piecewise`. -/
theorem trig_piecewise_counterexample :
    trigF idIntg "x" true 5 (.intE 1) = .res (some (.var "x"))
    ∧ TExpr.isPiecewise (.var "x") = false :=
  ⟨by decide, by decide⟩

/-- C9 (amended): with `conds = 'piecewise'`, every value returned by
`trigintegrate` on a matching input whose exponents are not both zero is
`Piecewise((zz, Eq(a, 0)), (res, True))` with `zz = x` when the matched
sine exponent is zero and `zz = 0` otherwise, so the division by the
matched coefficient `a` happens only in the branch guarded away from
`a = 0`. -/
theorem trig_piecewise_shape (O : TOracles) (x : String) (fuel : Nat) (f a : TExpr) (n m : Int)
    (v : TExpr) (hm : matchSinCos x (rewriteSincos f) = some (a, n, m))
    (hnm : ¬ (n = 0 ∧ m = 0)) (hres : trigF O x true fuel f = .res (some v)) :
    ∃ w, v = .piecewise (if n = 0 then .var x else .intE 0) (.eq a (.intE 0)) w := by
  cases fuel with
  | zero => simp [trigF] at hres
  | succ g =>
    simp only [trigF, hm] at hres
    rw [if_neg hnm] at hres
    by_cases hodd : n % 2 ≠ 0 ∨ m % 2 ≠ 0
    · rw [if_pos hodd] at hres
      simp only [if_true, TRes.res.injEq, Option.some.injEq] at hres
      exact ⟨_, hres.symm⟩
    · rw [if_neg hodd] at hres
      obtain ⟨r, _, hk⟩ := TRes.bindE_eq_res _ _ _ hres
      simp only [if_true, TRes.res.injEq, Option.some.injEq] at hk
      exact ⟨_, hk.symm⟩

/-- Witness for the amended C9 at `f = sin(x)`. -/
theorem trig_piecewise_shape_witness :
    ∃ w, TExpr.piecewise (.intE 0) (.eq (.intE 1) (.intE 0)) (.intE (-1))
      = .piecewise (if (1:Int) = 0 then .var "x" else .intE 0) (.eq (.intE 1) (.intE 0)) w :=
  trig_piecewise_shape idIntg "x" 4 (.sin (.var "x")) (.intE 1) 1 0
    (.piecewise (.intE 0) (.eq (.intE 1) (.intE 0)) (.intE (-1)))
    (by decide) (by decide) (by decide)

end TrigModel

namespace QapplyModel

theorem mkPow_eq_pow (b : Expr) (k : Int) (h0 : k ≠ 0) (h1 : k ≠ 1) (hb : b ≠ .intE 1) :
    mkPow b (.intE k) = .pow b (.intE k) := by
  unfold mkPow
  split <;> simp_all

/-- Under the always-failing application oracle, `qapply_Mul` loops
forever on `OuterProduct**z * ket` for `z ≤ -3`: the `Pow` reduction and
the `OuterProduct` split feed each other with an ever more negative
exponent, so every amount of fuel is exhausted. -/
theorem qapply_Mul_outer_neg_loop : ∀ (fuel : Nat) (z : Int) (t : String), z ≤ -3 →
    qapply_MulF exnO false false fuel
      (.mul [.pow (.outer (.ket "a") (.bra "b")) (.intE z), .ket t]) = none := by
  intro fuel
  induction fuel with
  | zero => intro z t hz; rfl
  | succ f ih =>
    intro z t hz
    have hp : mkPow (.outer (.ket "a") (.bra "b")) (.intE (z - 1))
        = .pow (.outer (.ket "a") (.bra "b")) (.intE (z - 1)) :=
      mkPow_eq_pow _ _ (by omega) (by omega) (by simp)
    have hrec := ih (z - 1) "a" (by omega)
    have hap : ∀ a b, exnO.ap a b = ApplyRes.exn := fun _ _ => rfl
    simp [qapply_MulF, argsOf, Expr.isMul, isCommutative, listComm, tensorSplit, applyOrInner,
      popPow, popOuter, hap, Expr.isBra, Expr.isKet, Expr.isInner, beqE, mkMulL, mulFlat,
      combAdj, expOfI, baseOf, hp, hrec]

/-- C2 counterexample: `qapply((|a><b|)**(-2) * |c>)` does not terminate
when every `_apply_operator` call fails (the generic `BraBase`/`KetBase`
behaviour): the `Pow` exponent-reduction step and the `OuterProduct`
split drive the exponent to minus infinity, so no amount of fuel returns
a result. -/
theorem qapply_nonterminating_counterexample :
    ¬ QTerminates exnO false false
        (.mul [.pow (.outer (.ket "a") (.bra "b")) (.intE (-2)), .ket "c"]) := by
  rintro ⟨fuel, r, hr⟩
  have haux : ∀ fl, qapplyF exnO false false fl
      (.mul [.pow (.outer (.ket "a") (.bra "b")) (.intE (-2)), .ket "c"]) = none := by
    intro fl
    cases fl with
    | zero => rfl
    | succ f =>
      cases f with
      | zero => rfl
      | succ g =>
        have hp : mkPow (.outer (.ket "a") (.bra "b")) (.intE (-2 - 1))
            = .pow (.outer (.ket "a") (.bra "b")) (.intE (-3)) := by
          rw [mkPow_eq_pow _ _ (by omega) (by omega) (by simp)]
          norm_num
        have hrec := qapply_Mul_outer_neg_loop g (-3) "a" (by omega)
        have hap : ∀ a b, exnO.ap a b = ApplyRes.exn := fun _ _ => rfl
        have hex : ∀ e, exnO.expand e = e := fun _ => rfl
        simp [qapplyF, qapply_MulF, argsOf, Expr.isMul, Expr.isKet, isCommutative, listComm,
          tensorSplit, applyOrInner, popPow, popOuter, hap, hex, Expr.isBra, Expr.isInner, beqE,
          mkMulL, mulFlat, combAdj, expOfI, baseOf, hp, hrec]
  rw [haux fuel] at hr
  exact Option.noConfusion hr

/-- C1 (amended): whenever both `lhs._apply_operator(rhs)` and
`rhs._apply_operator(lhs)` raise for the rightmost pair of a product
`args0 * lhs * rhs` with `lhs` a `BraBase` and `rhs` a `KetBase`,
`qapply_Mul` falls back to the symbolic `InnerProduct(lhs, rhs)` and
multiplies it onto the recursive result for the remaining factors; with
`ip_doit` true, `.doit()` is applied to the inner product first (stated
for the generic case where `doit` returns the symbolic inner product
unchanged). -/
theorem qapply_Mul_bra_ket_fallback (O : QOracles) (args0 : List Expr) (s t : String)
    (fuel : Nat) (q q2 : Expr)
    (hap1 : O.ap (.bra s) (.ket t) = .exn) (hap2 : O.ap (.ket t) (.bra s) = .exn)
    (hq : qapply_MulF O false false fuel (mkMulL args0) = some q)
    (hd : O.ipDoit (.inner (.bra s) (.ket t)) = .inner (.bra s) (.ket t))
    (hq2 : qapply_MulF O false true fuel (mkMulL args0) = some q2) :
    qapply_MulF O false false (fuel + 1) (.mul (args0 ++ [.bra s, .ket t]))
      = some (mkMulL [.inner (.bra s) (.ket t), q])
    ∧ qapply_MulF O false true (fuel + 1) (.mul (args0 ++ [.bra s, .ket t]))
      = some (mkMulL [.inner (.bra s) (.ket t), q2]) := by
  constructor
  · simp [qapply_MulF, argsOf, Expr.isMul, isCommutative, tensorSplit, applyOrInner,
      popPow, popOuter, hap1, hap2, hq, Expr.isBra, Expr.isKet, Expr.isInner, beqE,
      List.reverse_append]
  · simp [qapply_MulF, argsOf, Expr.isMul, isCommutative, tensorSplit, applyOrInner,
      popPow, popOuter, hap1, hap2, hd, hq2, Expr.isBra, Expr.isKet, Expr.isInner, beqE,
      List.reverse_append]

/-- Witness for the amended C1 on `A * <b| * |k>` with the always-failing
oracle. -/
theorem qapply_Mul_bra_ket_fallback_witness :
    qapply_MulF exnO false false 2 (.mul [.op "A", .bra "b", .ket "k"])
      = some (mkMulL [.inner (.bra "b") (.ket "k"), .op "A"])
    ∧ qapply_MulF exnO false true 2 (.mul [.op "A", .bra "b", .ket "k"])
      = some (mkMulL [.inner (.bra "b") (.ket "k"), .op "A"]) :=
  qapply_Mul_bra_ket_fallback exnO [.op "A"] "b" "k" 1 (.op "A") (.op "A")
    rfl rfl (by decide) rfl (by decide)

/-- C1 counterexample: for the non-commutative pair `A * B` of plain
operators, both applications fail but no `InnerProduct` is constructed
(`lhs` is not a `BraBase`): the product is returned unchanged. -/
theorem qapply_Mul_no_fallback_counterexample :
    qapply_MulF exnO false true 9 (.mul [.op "A", .op "B"]) = some (.mul [.op "A", .op "B"])
    ∧ containsInner (.mul [.op "A", .op "B"]) = false :=
  ⟨by decide, by decide⟩

/-- C10: when the expanded form of a non-zero `e` is `Add(a1, ..., an)`,
`qapply(e, **options)` is the sum of the `qapply(ai, **options)` (each at
one less fuel), exactly as computed by the `result += qapply(arg)` loop
starting from `0`. -/
theorem qapply_add_distributes (O : QOracles) (d i : Bool) (fuel : Nat) (e : Expr) (l : List Expr)
    (h0 : e ≠ .intE 0) (hx : O.expand e = .add l) :
    qapplyF O d i (fuel + 1) e
      = (mapMO (qapplyF O d i fuel) l).bind (fun rs => some (rs.foldl mkAdd2 (.intE 0))) := by
  simp only [qapplyF]
  rw [if_neg (show ¬ (beqE e (.intE 0)) = true from fun h => h0 ((beqE_iff _ _).1 h)), hx]
  simp [Expr.isKet]

/-- Witness for C10 on the sum of two kets. -/
theorem qapply_add_distributes_witness :
    qapplyF exnO false false 4 (.add [.ket "a", .ket "b"])
      = (mapMO (qapplyF exnO false false 3) [Expr.ket "a", Expr.ket "b"]).bind
          (fun rs => some (rs.foldl mkAdd2 (.intE 0))) :=
  qapply_add_distributes exnO false false 3 (.add [.ket "a", .ket "b"])
    [.ket "a", .ket "b"] (by decide) rfl

end QapplyModel

/-- C5: the computation is pure and deterministic: the embeddings of
`qapply` and `trigintegrate` are functions of their inputs alone, so two
runs on equal inputs (same expression, options, callbacks and fuel)
return equal results; there is no hidden state that could distinguish
them. -/
theorem qapply_trig_deterministic (O : QapplyModel.QOracles) (d i : Bool) (fuel : Nat)
    (e1 e2 : QapplyModel.Expr) (T : TrigModel.TOracles) (x : String) (pw : Bool) (tf : Nat)
    (f1 f2 : TrigModel.TExpr) (h1 : e1 = e2) (h2 : f1 = f2) :
    QapplyModel.qapplyF O d i fuel e1 = QapplyModel.qapplyF O d i fuel e2
    ∧ TrigModel.trigF T x pw tf f1 = TrigModel.trigF T x pw tf f2 := by
  subst h1; subst h2; exact ⟨rfl, rfl⟩

/-- Witness for C5 on two equal concrete inputs. -/
theorem qapply_trig_deterministic_witness :
    QapplyModel.qapplyF QapplyModel.exnO false true 3 (.ket "a")
      = QapplyModel.qapplyF QapplyModel.exnO false true 3 (.ket "a")
    ∧ TrigModel.trigF TrigModel.idIntg "x" true 3 (.sin (.var "x"))
      = TrigModel.trigF TrigModel.idIntg "x" true 3 (.sin (.var "x")) :=
  qapply_trig_deterministic QapplyModel.exnO false true 3 (.ket "a") (.ket "a")
    TrigModel.idIntg "x" true 3 (.sin (.var "x")) (.sin (.var "x")) rfl rfl

namespace QapplyModel

theorem sizeL_append : ∀ a b : List Expr, sizeL (a ++ b) = sizeL a + sizeL b := by
  intro a b
  induction a with
  | nil => simp [sizeL]
  | cons x xs ih => simp [sizeL, ih]; omega

theorem sizeL_reverse : ∀ l : List Expr, sizeL l.reverse = sizeL l := by
  intro l
  induction l with
  | nil => rfl
  | cons x xs ih => simp [sizeL, List.reverse_cons, sizeL_append, ih] <;> omega

theorem wfL_append : ∀ a b : List Expr, wfL (a ++ b) = (wfL a && wfL b) := by
  intro a b
  induction a with
  | nil => simp [wfL]
  | cons x xs ih => simp [wfL, ih, Bool.and_assoc]

theorem wfL_reverse : ∀ l : List Expr, wfL l.reverse = wfL l := by
  intro l
  induction l with
  | nil => rfl
  | cons x xs ih => simp [wfL, List.reverse_cons, wfL_append, ih, Bool.and_comm]

theorem wfL_mem : ∀ (l : List Expr) (x : Expr), wfL l = true → x ∈ l → wfQ x = true := by
  intro l
  induction l with
  | nil => intro x _ hx; cases hx
  | cons y ys ih =>
    intro x hw hx
    simp [wfL, Bool.and_eq_true] at hw
    rcases List.mem_cons.1 hx with rfl | hx2
    · exact hw.1
    · exact ih x hw.2 hx2

theorem sizeQ_mem : ∀ (l : List Expr) (x : Expr), x ∈ l → sizeQ x ≤ sizeL l := by
  intro l
  induction l with
  | nil => intro x hx; cases hx
  | cons y ys ih =>
    intro x hx
    rcases List.mem_cons.1 hx with rfl | hx2
    · simp [sizeL] <;> omega
    · have := ih x hx2; simp [sizeL] <;> omega

theorem sizeQ_pos : ∀ e : Expr, wfQ e = true → 1 ≤ sizeQ e
  | .sym _, _ => by simp [sizeQ]
  | .intE _, _ => by simp [sizeQ]
  | .op _, _ => by simp [sizeQ]
  | .ket _, _ => by simp [sizeQ]
  | .bra _, _ => by simp [sizeQ]
  | .add _, _ => by simp [sizeQ]
  | .mul _, _ => by simp [sizeQ]
  | .tensor _, _ => by simp [sizeQ]
  | .pow b (.intE k), h => by
    simp only [wfQ, Bool.and_eq_true, decide_eq_true_eq] at h
    have hb := sizeQ_pos b h.2
    simp only [sizeQ]
    have hk : 1 ≤ k.natAbs := by omega
    calc 1 = 1 * 1 := by omega
    _ ≤ k.natAbs * sizeQ b := Nat.mul_le_mul hk hb
  | .pow b (.sym s), _ => by simp [sizeQ] <;> omega
  | .pow b (.op s), _ => by simp [sizeQ] <;> omega
  | .pow b (.ket s), _ => by simp [sizeQ] <;> omega
  | .pow b (.bra s), _ => by simp [sizeQ] <;> omega
  | .pow b (.add l), _ => by simp [sizeQ] <;> omega
  | .pow b (.mul l), _ => by simp [sizeQ] <;> omega
  | .pow b (.tensor l), _ => by simp [sizeQ] <;> omega
  | .pow b (.pow c d), _ => by simp [sizeQ] <;> omega
  | .pow b (.outer c d), _ => by simp [sizeQ] <;> omega
  | .pow b (.inner c d), _ => by simp [sizeQ] <;> omega
  | .outer a b, _ => by simp [sizeQ] <;> omega
  | .inner a b, _ => by simp [sizeQ] <;> omega

end QapplyModel

namespace QapplyModel

theorem mkPow_zero (b : Expr) : mkPow b (.intE 0) = .intE 1 := by
  unfold mkPow
  split <;> simp_all

theorem mkPow_one (b : Expr) : mkPow b (.intE 1) = b := by
  unfold mkPow
  split <;> simp_all

theorem mkPow_intE_one (k : Int) (h0 : k ≠ 0) (h1 : k ≠ 1) :
    mkPow (.intE 1) (.intE k) = .intE 1 := by
  unfold mkPow
  split <;> simp_all

theorem sizeQ_mkPow_le (b : Expr) (k : Int) (hk : 1 ≤ k) :
    sizeQ (mkPow b (.intE k)) ≤ k.natAbs * sizeQ b := by
  by_cases h1 : k = 1
  · subst h1; rw [mkPow_one]; simp
  · by_cases hb : b = .intE 1
    · subst hb
      rw [mkPow_intE_one k (by omega) h1]
      simp [sizeQ]
      omega
    · rw [mkPow_eq_pow b k (by omega) h1 hb]
      simp [sizeQ]

theorem wfQ_mkPow (b : Expr) (k : Int) (hb : wfQ b = true) (hk : 0 ≤ k) :
    wfQ (mkPow b (.intE k)) = true := by
  by_cases h0 : k = 0
  · subst h0; rw [mkPow_zero]; rfl
  · by_cases h1 : k = 1
    · subst h1; rw [mkPow_one]; exact hb
    · by_cases hbe : b = .intE 1
      · subst hbe; rw [mkPow_intE_one k h0 h1]; rfl
      · rw [mkPow_eq_pow b k h0 h1 hbe]
        simp [wfQ, hb]
        omega

theorem mulFlat_bounds : ∀ l : List Expr, wfL l = true →
    wfL (mulFlat l) = true ∧ sizeL (mulFlat l) ≤ sizeL l := by
  intro l
  induction l with
  | nil => intro _; exact ⟨rfl, le_refl _⟩
  | cons x xs ih =>
    intro h
    simp only [wfL, Bool.and_eq_true] at h
    obtain ⟨hx, hxs⟩ := h
    obtain ⟨ih1, ih2⟩ := ih hxs
    cases x <;>
      simp_all [mulFlat, sizeL, wfL, wfQ, sizeQ, sizeL_append, wfL_append] <;> omega

theorem filter_bounds (p : Expr → Bool) : ∀ l : List Expr, wfL l = true →
    wfL (l.filter p) = true ∧ sizeL (l.filter p) ≤ sizeL l := by
  intro l
  induction l with
  | nil => intro _; exact ⟨rfl, le_refl _⟩
  | cons x xs ih =>
    intro h
    simp only [wfL, Bool.and_eq_true] at h
    obtain ⟨hx, hxs⟩ := h
    obtain ⟨ih1, ih2⟩ := ih hxs
    cases hp : p x <;> simp [List.filter_cons, hp, wfL, sizeL, hx, ih1] <;> omega

theorem expOfI_facts : ∀ (x : Expr) (i : Int), wfQ x = true → expOfI x = some i →
    1 ≤ i ∧ wfQ (baseOf x) = true ∧ i.natAbs * sizeQ (baseOf x) ≤ sizeQ x := by
  intro x i hw he
  cases x with
  | pow b e =>
    cases e <;> simp [expOfI] at he
    case intE k =>
      subst he
      simp only [wfQ, Bool.and_eq_true, decide_eq_true_eq] at hw
      exact ⟨by omega, hw.2, by simp [baseOf, sizeQ]⟩
  | sym s => simp [expOfI] at he; subst he; exact ⟨by omega, hw, by simp [baseOf]⟩
  | intE n => simp [expOfI] at he; subst he; exact ⟨by omega, hw, by simp [baseOf]⟩
  | op s => simp [expOfI] at he; subst he; exact ⟨by omega, hw, by simp [baseOf]⟩
  | ket s => simp [expOfI] at he; subst he; exact ⟨by omega, hw, by simp [baseOf]⟩
  | bra s => simp [expOfI] at he; subst he; exact ⟨by omega, hw, by simp [baseOf]⟩
  | add l => simp [expOfI] at he; subst he; exact ⟨by omega, hw, by simp [baseOf]⟩
  | mul l => simp [expOfI] at he; subst he; exact ⟨by omega, hw, by simp [baseOf]⟩
  | tensor l => simp [expOfI] at he; subst he; exact ⟨by omega, hw, by simp [baseOf]⟩
  | outer a b => simp [expOfI] at he; subst he; exact ⟨by omega, hw, by simp [baseOf]⟩
  | inner a b => simp [expOfI] at he; subst he; exact ⟨by omega, hw, by simp [baseOf]⟩

theorem combAdj_bounds : ∀ l : List Expr, wfL l = true →
    wfL (combAdj l) = true ∧ sizeL (combAdj l) ≤ sizeL l := by
  intro l
  induction l with
  | nil => intro _; exact ⟨rfl, le_refl _⟩
  | cons x xs ih =>
    intro h
    simp only [wfL, Bool.and_eq_true] at h
    obtain ⟨hx, hxs⟩ := h
    obtain ⟨ih1, ih2⟩ := ih hxs
    cases hc : combAdj xs with
    | nil => simp [combAdj, hc, wfL, sizeL, hx] <;> omega
    | cons y rest2 =>
      rw [hc] at ih1 ih2
      simp only [wfL, Bool.and_eq_true] at ih1
      obtain ⟨hy, hrest2⟩ := ih1
      simp only [sizeL] at ih2
      cases hex : expOfI x with
      | none =>
        simp [combAdj, hc, hex, wfL, sizeL, hx, hy, hrest2] <;> omega
      | some i =>
        cases hey : expOfI y with
        | none =>
          simp [combAdj, hc, hex, hey, wfL, sizeL, hx, hy, hrest2] <;> omega
        | some j =>
          by_cases hb : beqE (baseOf x) (baseOf y) = true
          · have hbeq : baseOf x = baseOf y := (beqE_iff _ _).1 hb
            obtain ⟨hi1, hwbx, hix⟩ := expOfI_facts x i hx hex
            obtain ⟨hj1, hwby, hjy⟩ := expOfI_facts y j hy hey
            rw [← hbeq] at hjy
            have hwp : wfQ (mkPow (baseOf x) (.intE (i + j))) = true :=
              wfQ_mkPow _ _ hwbx (by omega)
            have hsp : sizeQ (mkPow (baseOf x) (.intE (i + j))) ≤
                (i + j).natAbs * sizeQ (baseOf x) := sizeQ_mkPow_le _ _ (by omega)
            have htri : (i + j).natAbs * sizeQ (baseOf x) ≤
                i.natAbs * sizeQ (baseOf x) + j.natAbs * sizeQ (baseOf x) := by
              have : (i + j).natAbs ≤ i.natAbs + j.natAbs := by omega
              calc (i + j).natAbs * sizeQ (baseOf x)
                  ≤ (i.natAbs + j.natAbs) * sizeQ (baseOf x) :=
                    Nat.mul_le_mul_right _ this
                _ = i.natAbs * sizeQ (baseOf x) + j.natAbs * sizeQ (baseOf x) :=
                    Nat.add_mul _ _ _
            simp only [combAdj, hc, hex, hey, if_pos hb]
            constructor
            · simp [wfL, hwp, hrest2]
            · simp only [sizeL]
              omega
          · simp [combAdj, hc, hex, hey, hb, wfL, sizeL, hx, hy, hrest2] <;> omega

theorem mkMulL_bounds (l : List Expr) (hw : wfL l = true) :
    wfQ (mkMulL l) = true ∧ sizeQ (mkMulL l) ≤ 1 + sizeL l := by
  obtain ⟨hf1, hf2⟩ := mulFlat_bounds l hw
  obtain ⟨hg1, hg2⟩ := filter_bounds (fun x => !(beqE x (.intE 1))) (mulFlat l) hf1
  obtain ⟨hh1, hh2⟩ := combAdj_bounds _ hg1
  obtain ⟨hk1, hk2⟩ := filter_bounds (fun x => !(beqE x (.intE 1))) _ hh1
  simp only [mkMulL]
  by_cases hz : (mulFlat l).any (fun x => beqE x (.intE 0)) = true
  · rw [if_pos hz]
    constructor
    · rfl
    · simp [sizeQ]
  · rw [if_neg hz]
    cases hm : (combAdj ((mulFlat l).filter (fun x => !(beqE x (.intE 1))))).filter
        (fun x => !(beqE x (.intE 1))) with
    | nil => exact ⟨rfl, by simp [sizeQ]⟩
    | cons x2 xs2 =>
      cases xs2 with
      | nil =>
        rw [hm] at hk1 hk2
        simp only [wfL, sizeL, Bool.and_eq_true] at hk1 hk2
        refine ⟨hk1.1, ?_⟩
        show sizeQ x2 ≤ 1 + sizeL l
        omega
      | cons x3 xs3 =>
        rw [hm] at hk1 hk2
        refine ⟨by simpa [wfQ] using hk1, ?_⟩
        simp only [sizeQ]
        omega

end QapplyModel

namespace QapplyModel

theorem popPow_bounds (p : List Expr × Expr) (ha : wfL p.1 = true) (hw : wfQ p.2 = true) :
    wfL (popPow p).1 = true ∧ wfQ (popPow p).2 = true ∧
      sizeL (popPow p).1 + sizeQ (popPow p).2 ≤ sizeL p.1 + sizeQ p.2 := by
  obtain ⟨args, lhs⟩ := p
  cases lhs
  case pow b e =>
    cases e
    case intE k =>
      simp only [popPow]
      simp only [wfQ, Bool.and_eq_true, decide_eq_true_eq] at hw
      obtain ⟨hk, hbw⟩ := hw
      have h1 : wfQ (mkPow b (.intE (k - 1))) = true := wfQ_mkPow b _ hbw (by omega)
      have h2 : sizeQ (mkPow b (.intE (k - 1))) ≤ (k - 1).natAbs * sizeQ b :=
        sizeQ_mkPow_le b _ (by omega)
      refine ⟨?_, hbw, ?_⟩
      · simp [wfL_append, ha, wfL, h1]
      · rw [sizeL_append]
        simp only [sizeL, sizeQ]
        have h3 : (k - 1).natAbs * sizeQ b + sizeQ b = k.natAbs * sizeQ b := by
          have hn : (k - 1).natAbs + 1 = k.natAbs := by omega
          calc (k - 1).natAbs * sizeQ b + sizeQ b
              = ((k - 1).natAbs + 1) * sizeQ b := by ring
          _ = k.natAbs * sizeQ b := by rw [hn]
        omega
    all_goals exact ⟨ha, hw, le_refl _⟩
  all_goals exact ⟨ha, hw, le_refl _⟩

theorem popOuter_bounds (p : List Expr × Expr) (ha : wfL p.1 = true) (hw : wfQ p.2 = true) :
    wfL (popOuter p).1 = true ∧ wfQ (popOuter p).2 = true ∧
      sizeL (popOuter p).1 + sizeQ (popOuter p).2 ≤ sizeL p.1 + sizeQ p.2 := by
  obtain ⟨args, lhs⟩ := p
  cases lhs
  case outer kk bb =>
    simp only [popOuter]
    simp only [wfQ, Bool.and_eq_true] at hw
    refine ⟨by simp [wfL_append, ha, wfL, hw.1], hw.2, ?_⟩
    rw [sizeL_append]
    simp only [sizeL, sizeQ]
    omega
  all_goals exact ⟨ha, hw, le_refl _⟩

theorem tensorSplit_eq_some (lhs rhs : Expr) (ls rs : List Expr)
    (h : tensorSplit lhs rhs = some (ls, rs)) : lhs = .tensor ls ∧ rhs = .tensor rs := by
  cases lhs <;> simp [tensorSplit] at h
  case tensor l1 =>
    cases rhs <;> simp [tensorSplit] at h
    case tensor l2 =>
      obtain ⟨-, h1, h2⟩ := h
      exact ⟨by rw [h1], by rw [h2]⟩

theorem mapMO_isSome {A : Type} (f : A → Option Expr) : ∀ l : List A,
    (∀ x ∈ l, (f x).isSome = true) → (mapMO f l).isSome = true := by
  intro l
  induction l with
  | nil => intro _; rfl
  | cons x xs ih =>
    intro h
    obtain ⟨b, hb⟩ := Option.isSome_iff_exists.1 (h x (by simp))
    have hxs := ih (fun y hy => h y (by simp [hy]))
    obtain ⟨bs, hbs⟩ := Option.isSome_iff_exists.1 hxs
    simp [mapMO, hb, hbs]

theorem isMul_exists (e : Expr) (h : e.isMul = true) : ∃ l, e = .mul l := by
  cases e <;> simp [Expr.isMul] at h
  exact ⟨_, rfl⟩

theorem reverse_decomp (l : List Expr) (rhs lhs0 : Expr) (restRev : List Expr)
    (h : l.reverse = rhs :: lhs0 :: restRev) : l = restRev.reverse ++ [lhs0, rhs] := by
  have h2 := congrArg List.reverse h
  simpa using h2

end QapplyModel

namespace QapplyModel

theorem qapply_total_main : ∀ fuel : Nat,
    (∀ e, wfQ e = true → 2 * sizeQ e + 1 ≤ fuel → (qapplyF exnO false false fuel e).isSome = true)
    ∧ (∀ e, wfQ e = true → 2 * sizeQ e ≤ fuel → (qapply_MulF exnO false false fuel e).isSome = true) := by
  intro fuel
  induction fuel using Nat.strong_induction_on with
  | _ fuel IH =>
    constructor
    · intro e hw hb
      have hpos := sizeQ_pos e hw
      obtain ⟨f, rfl⟩ : ∃ f, fuel = f + 1 := ⟨fuel - 1, by omega⟩
      simp only [qapplyF]
      by_cases hz : beqE e (.intE 0) = true
      · rw [if_pos hz]; rfl
      · rw [if_neg hz]
        rw [show exnO.expand e = e from rfl]
        by_cases hk : e.isKet = true
        · rw [if_pos hk]; rfl
        · rw [if_neg hk]
          cases e with
          | sym s => rfl
          | intE n => rfl
          | op s => rfl
          | ket s => rfl
          | bra s => rfl
          | outer a b => rfl
          | inner a b => rfl
          | add l =>
            have hl : wfL l = true := by simpa [wfQ] using hw
            have hmap : (mapMO (qapplyF exnO false false f) l).isSome = true := by
              apply mapMO_isSome
              intro x hx
              exact (IH f (by omega)).1 x (wfL_mem l x hl hx)
                (by have := sizeQ_mem l x hx; simp only [sizeQ] at hb; omega)
            obtain ⟨rs, hrs⟩ := Option.isSome_iff_exists.1 hmap
            simp [hrs]
          | tensor l =>
            have hl : wfL l = true := by simpa [wfQ] using hw
            have hmap : (mapMO (qapplyF exnO false false f) l).isSome = true := by
              apply mapMO_isSome
              intro x hx
              exact (IH f (by omega)).1 x (wfL_mem l x hl hx)
                (by have := sizeQ_mem l x hx; simp only [sizeQ] at hb; omega)
            obtain ⟨rs, hrs⟩ := Option.isSome_iff_exists.1 hmap
            simp [hrs]
          | pow b ex =>
            have hcall : (qapplyF exnO false false f b).isSome = true := by
              cases ex with
              | intE k =>
                simp only [wfQ, Bool.and_eq_true, decide_eq_true_eq] at hw
                have hbp := sizeQ_pos b hw.2
                have hmul : 2 * sizeQ b ≤ k.natAbs * sizeQ b :=
                  Nat.mul_le_mul_right _ (by omega)
                exact (IH f (by omega)).1 b hw.2 (by simp only [sizeQ] at hb; omega)
              | sym s =>
                simp only [wfQ, Bool.and_eq_true] at hw
                exact (IH f (by omega)).1 b hw.1 (by simp only [sizeQ] at hb; omega)
              | op s =>
                simp only [wfQ, Bool.and_eq_true] at hw
                exact (IH f (by omega)).1 b hw.1 (by simp only [sizeQ] at hb; omega)
              | ket s =>
                simp only [wfQ, Bool.and_eq_true] at hw
                exact (IH f (by omega)).1 b hw.1 (by simp only [sizeQ] at hb; omega)
              | bra s =>
                simp only [wfQ, Bool.and_eq_true] at hw
                exact (IH f (by omega)).1 b hw.1 (by simp only [sizeQ] at hb; omega)
              | add l2 =>
                simp only [wfQ, Bool.and_eq_true] at hw
                exact (IH f (by omega)).1 b hw.1 (by simp only [sizeQ] at hb; omega)
              | mul l2 =>
                simp only [wfQ, Bool.and_eq_true] at hw
                exact (IH f (by omega)).1 b hw.1 (by simp only [sizeQ] at hb; omega)
              | tensor l2 =>
                simp only [wfQ, Bool.and_eq_true] at hw
                exact (IH f (by omega)).1 b hw.1 (by simp only [sizeQ] at hb; omega)
              | pow c d =>
                simp only [wfQ, Bool.and_eq_true] at hw
                exact (IH f (by omega)).1 b hw.1 (by simp only [sizeQ] at hb; omega)
              | outer c d =>
                simp only [wfQ, Bool.and_eq_true] at hw
                exact (IH f (by omega)).1 b hw.1 (by simp only [sizeQ] at hb; omega)
              | inner c d =>
                simp only [wfQ, Bool.and_eq_true] at hw
                exact (IH f (by omega)).1 b hw.1 (by simp only [sizeQ] at hb; omega)
            obtain ⟨r, hr⟩ := Option.isSome_iff_exists.1 hcall
            simp [hr]
          | mul l =>
            have hmm := (IH f (by omega)).2 (.mul l) hw (by omega)
            obtain ⟨r, hr⟩ := Option.isSome_iff_exists.1 hmm
            simp [hr]
    · intro e hw hb
      have hpos := sizeQ_pos e hw
      obtain ⟨f, rfl⟩ : ∃ f, fuel = f + 1 := ⟨fuel - 1, by omega⟩
      simp only [qapply_MulF]
      by_cases hg : ((argsOf e).length ≤ 1 || !e.isMul) = true
      · rw [if_pos hg]; rfl
      · rw [if_neg hg]
        simp only [Bool.or_eq_true, decide_eq_true_eq, Bool.not_eq_true', not_or,
          Bool.not_eq_false] at hg
        obtain ⟨hlen, hmul⟩ := hg
        obtain ⟨l, rfl⟩ := isMul_exists _ hmul
        simp only [argsOf] at hlen ⊢
        cases hrev : l.reverse with
        | nil =>
          exfalso
          have h2 : l.length = 0 := by
            have h3 := congrArg List.length hrev
            simpa using h3
          omega
        | cons rhs rest1 =>
          cases rest1 with
          | nil =>
            exfalso
            have h2 : l.length = 1 := by
              have h3 := congrArg List.length hrev
              simpa using h3
            omega
          | cons lhs0 restRev =>
            simp only []
            have hld : l = restRev.reverse ++ [lhs0, rhs] :=
              reverse_decomp l rhs lhs0 restRev hrev
            have hwl : wfL l = true := by simpa [wfQ] using hw
            have hwsplit : (wfL restRev.reverse ∧ wfQ lhs0 = true) ∧ wfQ rhs = true := by
              rw [hld] at hwl
              simp [wfL_append, wfL, Bool.and_eq_true] at hwl
              tauto
            have hwargs : wfL restRev.reverse = true := hwsplit.1.1
            have hwlhs0 : wfQ lhs0 = true := hwsplit.1.2
            have hwrhs : wfQ rhs = true := hwsplit.2
            have hsz : sizeL l = sizeL restRev.reverse + sizeQ lhs0 + sizeQ rhs := by
              rw [hld, sizeL_append]
              simp [sizeL] <;> omega
            have hposl : 1 ≤ sizeQ lhs0 := sizeQ_pos _ hwlhs0
            have hposr : 1 ≤ sizeQ rhs := sizeQ_pos _ hwrhs
            by_cases hcomm : (isCommutative rhs || isCommutative lhs0) = true
            · rw [if_pos hcomm]; rfl
            · rw [if_neg hcomm]
              obtain ⟨hq1, hq2, hq3⟩ := popPow_bounds (restRev.reverse, lhs0) hwargs hwlhs0
              obtain ⟨hp1, hp2, hp3⟩ := popOuter_bounds (popPow (restRev.reverse, lhs0)) hq1 hq2
              set p := popOuter (popPow (restRev.reverse, lhs0)) with hpdef
              have hstep : sizeL p.1 + sizeQ p.2 ≤ sizeL restRev.reverse + sizeQ lhs0 :=
                le_trans hp3 hq3
              have hpos2 : 1 ≤ sizeQ p.2 := sizeQ_pos _ hp2
              have hse : sizeQ (.mul l) = 1 + sizeL l := rfl
              rw [hse] at hb
              cases hts : tensorSplit p.2 rhs with
              | some pr =>
                obtain ⟨ls, rs⟩ := pr
                obtain ⟨hlt, hrt⟩ := tensorSplit_eq_some _ _ _ _ hts
                have hszp2 : sizeQ p.2 = 1 + sizeL ls := by rw [hlt]; rfl
                have hszr : sizeQ rhs = 1 + sizeL rs := by rw [hrt]; rfl
                have hparts : (mapMO
                    (fun pr2 => qapplyF exnO false false f (mkMulL [pr2.1, pr2.2]))
                    (ls.zip rs)).isSome = true := by
                  apply mapMO_isSome
                  intro pr2 hpr
                  have hmem := List.mem_zip hpr
                  have hwls : wfL ls = true := by
                    rw [hlt] at hp2; simpa [wfQ] using hp2
                  have hwrs : wfL rs = true := by
                    rw [hrt] at hwrhs; simpa [wfQ] using hwrhs
                  have hwa := wfL_mem ls pr2.1 hwls hmem.1
                  have hwb := wfL_mem rs pr2.2 hwrs hmem.2
                  have hwm : wfL [pr2.1, pr2.2] = true := by simp [wfL, hwa, hwb]
                  obtain ⟨hmw, hms⟩ := mkMulL_bounds [pr2.1, pr2.2] hwm
                  have hsa := sizeQ_mem ls pr2.1 hmem.1
                  have hsb := sizeQ_mem rs pr2.2 hmem.2
                  have hsl2 : sizeL [pr2.1, pr2.2] = sizeQ pr2.1 + sizeQ pr2.2 := by
                    simp [sizeL]
                  apply (IH f (by omega)).1 _ hmw
                  omega
                obtain ⟨parts, hpartse⟩ := Option.isSome_iff_exists.1 hparts
                obtain ⟨hmw2, hms2⟩ := mkMulL_bounds p.1 hp1
                have hq := (IH f (by omega)).2 (mkMulL p.1) hmw2 (by omega)
                obtain ⟨q, hqe⟩ := Option.isSome_iff_exists.1 hq
                simp [hpartse, hqe]
              | none =>
                rw [show applyOrInner exnO false p.2 rhs
                    = (if p.2.isBra && rhs.isKet then some (.inner p.2 rhs) else none)
                    from rfl]
                by_cases hbk : (p.2.isBra && rhs.isKet) = true
                · rw [if_pos hbk]
                  obtain ⟨hmw2, hms2⟩ := mkMulL_bounds p.1 hp1
                  have hq := (IH f (by omega)).2 (mkMulL p.1) hmw2 (by omega)
                  obtain ⟨q, hqe⟩ := Option.isSome_iff_exists.1 hq
                  simp [beqE, Expr.isInner, hqe]
                · rw [if_neg hbk]
                  by_cases hemp : p.1.isEmpty = true
                  · simp [hemp]
                  · have hwapp : wfL (p.1 ++ [p.2]) = true := by
                      rw [wfL_append]
                      simp [hp1, wfL, hp2]
                    obtain ⟨hmw3, hms3⟩ := mkMulL_bounds (p.1 ++ [p.2]) hwapp
                    have hsapp : sizeL (p.1 ++ [p.2]) = sizeL p.1 + sizeQ p.2 := by
                      rw [sizeL_append]; simp [sizeL]
                    have hq := (IH f (by omega)).2 (mkMulL (p.1 ++ [p.2])) hmw3 (by omega)
                    obtain ⟨q, hqe⟩ := Option.isSome_iff_exists.1 hq
                    simp [hemp, hqe]

end QapplyModel

namespace QapplyModel

/-- C2 (amended): `qapply` terminates on every well-formed expression of
the embedded sublanguage (integer exponents at least `2`; see `wfQ`) when
every `_apply_operator` call fails, expansion is the identity and the
`dagger`/`ip_doit` options are off: fuel `2 * sizeQ e + 1` always
suffices.  The unrestricted claim is refuted by
`qapply_nonterminating_counterexample`: a negative integer power of an
outer product loops forever through the `Pow` reduction and the
`OuterProduct` split. -/
theorem qapply_terminates_wf (e : Expr) (h : wfQ e = true) :
    QTerminates exnO false false e := by
  obtain ⟨r, hr⟩ := Option.isSome_iff_exists.1
    ((qapply_total_main (2 * sizeQ e + 1)).1 e h (le_refl _))
  exact ⟨2 * sizeQ e + 1, r, hr⟩

/-- Witness for the amended C2 on a product exercising the `Pow`
reduction, the `OuterProduct` split and the inner-product fallback. -/
theorem qapply_terminates_wf_witness :
    QTerminates exnO false false
      (.mul [.pow (.outer (.ket "a") (.bra "b")) (.intE 2), .op "A", .ket "c"]) :=
  qapply_terminates_wf _ (by decide)

end QapplyModel
